import Mathlib

/-!
Shallow embedding of `src/test-code.py`: a binary search over a sorted list
of integers, plus the demonstration driver at the bottom of the file.

Python integers are unbounded, so bounds and elements are modelled as `Int`.
Python sequence indexing can raise `IndexError`, so the embedded search
returns `Option Int`: `none` models a runtime error, `some r` a normal
return of the value `r` (which is `-1` when the target is absent).
-/

namespace BinSearch

/-- Python sequence indexing `arr[i]`: a non-negative index `i` reads
position `i` when `i < len(arr)`; a negative index reads from the end when
`len(arr) + i >= 0`; any other index raises `IndexError`, modelled `none`. -/
def pyIdx (arr : List Int) (i : Int) : Option Int :=
  if 0 ≤ i then arr[i.toNat]?
  else if 0 ≤ i + arr.length then arr[(i + arr.length).toNat]?
  else none

/-- Line 10 of the source, `mid = (left + right) // 2`: Python `//` is
floor division, which `Int.fdiv` implements. -/
def midOf (left right : Int) : Int :=
  Int.fdiv (left + right) 2

/-- Lines 9-17 of the source: the `while left <= right` loop, as a
recursive function of the mutable locals `left` and `right`. `none`
models an uncaught `IndexError` from `arr[mid]`; `some r` a `return r`. -/
def binary_searchGo (arr : List Int) (target : Int) (left right : Int) : Option Int :=
  if h : left ≤ right then
    match pyIdx arr (midOf left right) with
    | none => none
    | some v =>
      if v = target then some (midOf left right)
      else if v < target then binary_searchGo arr target (midOf left right + 1) right
      else binary_searchGo arr target left (midOf left right - 1)
  else some (-1)
termination_by (right - left + 1).toNat
decreasing_by
  · rw [midOf, Int.fdiv_eq_ediv _ (by omega)]; omega
  · rw [midOf, Int.fdiv_eq_ediv _ (by omega)]; omega

/-- Lines 2-19 of the source: `left, right = 0, len(arr) - 1` followed by
the loop; falling out of the loop returns `-1`. -/
def binary_search (arr : List Int) (target : Int) : Option Int :=
  binary_searchGo arr target 0 ((arr.length : Int) - 1)

/-- The same loop with explicit fuel, structurally recursive so that the
kernel can evaluate it on concrete inputs; the outer `none` means the fuel
ran out before the loop finished. -/
def binary_searchFuelGo (arr : List Int) (target : Int) :
    Nat → Int → Int → Option (Option Int)
  | 0, _, _ => none
  | fuel + 1, left, right =>
    if left ≤ right then
      match pyIdx arr (midOf left right) with
      | none => some none
      | some v =>
        if v = target then some (some (midOf left right))
        else if v < target then binary_searchFuelGo arr target fuel (midOf left right + 1) right
        else binary_searchFuelGo arr target fuel left (midOf left right - 1)
    else some (some (-1))

/-- Fuel-indexed version of `binary_search`. -/
def binary_searchFuel (arr : List Int) (target : Int) (fuel : Nat) : Option (Option Int) :=
  binary_searchFuelGo arr target fuel 0 ((arr.length : Int) - 1)

/-- Element of `arr` at an integer position known to be in range, made
total with default `0`; this is the `sequence[mid]` access of the spec's
reference algorithm, which presumes the index in range. -/
def seqGet (arr : List Int) (i : Int) : Int := arr.getD i.toNat 0

/-- Reference loop of spec section 4.1, written from the spec's words:
bounds `low` and `high`; while `low <= high`, `mid = (low + high) / 2`
with integer floor division (`midOf`); return `mid` on equality, move
`low` past `mid` when `sequence[mid] < target`, move `high` below `mid`
when `sequence[mid] > target`; return the sentinel `-1` when `low > high`.
This is the second definition for the refinement claim, compared against
`binary_searchGo`. -/
def spec_search_go (arr : List Int) (target : Int) (low high : Int) : Int :=
  if h : low ≤ high then
    if seqGet arr (midOf low high) = target then midOf low high
    else if seqGet arr (midOf low high) < target then
      spec_search_go arr target (midOf low high + 1) high
    else spec_search_go arr target low (midOf low high - 1)
  else -1
termination_by (high - low + 1).toNat
decreasing_by
  · rw [midOf, Int.fdiv_eq_ediv _ (by omega)]; omega
  · rw [midOf, Int.fdiv_eq_ediv _ (by omega)]; omega

/-- Reference algorithm of spec section 4.1: `low` starts at `0`, `high`
at `length - 1`. -/
def spec_search (arr : List Int) (target : Int) : Int :=
  spec_search_go arr target 0 ((arr.length : Int) - 1)

/-- Line 22 of the source. -/
def sorted_array : List Int := [1, 3, 5, 7, 9, 11, 13, 15, 17, 19]

/-- Line 23 of the source. -/
def target : Int := 7

/-- Line 25 of the source. -/
def result : Option Int := binary_search sorted_array target

/-- Lines 26-29 of the source: the message printed by the driver, or
`none` if the call itself raised. -/
def driver_output : Option String :=
  match result with
  | none => none
  | some r =>
    if r ≠ -1 then
      some ("Element " ++ toString target ++ " found at index " ++ toString r)
    else
      some ("Element " ++ toString target ++ " not found in the array")

/-- Floor division by the positive literal `2` agrees with Euclidean
division, which `omega` understands. -/
theorem midOf_eq (left right : Int) : midOf left right = (left + right) / 2 :=
  Int.fdiv_eq_ediv _ (by omega)

/-- Indexing with a non-negative in-range integer index succeeds and gives
the total access `seqGet`. -/
theorem pyIdx_of_bounds {arr : List Int} {i : Int} (h0 : 0 ≤ i)
    (h1 : i < (arr.length : Int)) : pyIdx arr i = some (seqGet arr i) := by
  have hlt : i.toNat < arr.length := by omega
  simp [pyIdx, h0, seqGet, List.getElem?_eq_getElem hlt, List.getD_eq_getElem?_getD]

/-- With more fuel than the size of the current window, the fuel-indexed
loop computes exactly the loop of the source. -/
theorem fuelGo_eq_go (arr : List Int) (target : Int) :
    ∀ (fuel : Nat) (left right : Int), (right - left + 1).toNat < fuel →
      binary_searchFuelGo arr target fuel left right =
        some (binary_searchGo arr target left right) := by
  intro fuel
  induction fuel with
  | zero => intro left right h; omega
  | succ f ih =>
    intro left right h
    rw [binary_searchGo, binary_searchFuelGo]
    by_cases hlr : left ≤ right
    · simp only [hlr, if_true, dif_pos hlr]
      cases hv : pyIdx arr (midOf left right) with
      | none => rfl
      | some v =>
        simp only []
        by_cases he : v = target
        · simp [he]
        · by_cases hl : v < target
          · simp only [he, if_false, hl, if_true]
            exact ih _ _ (by rw [midOf_eq] at *; omega)
          · simp only [he, if_false, hl]
            exact ih _ _ (by rw [midOf_eq] at *; omega)
    · simp [hlr]

/-- Fuel `length + 1` always suffices for the top-level call. -/
theorem binary_search_eq_fuel (arr : List Int) (target : Int) :
    binary_searchFuel arr target (arr.length + 1) = some (binary_search arr target) :=
  fuelGo_eq_go arr target _ 0 _ (by omega)

/-- Transfer of a concrete kernel evaluation of the fuel-indexed search to
the search itself. -/
theorem binary_search_from_fuel (arr : List Int) (x : Int) (res : Option Int)
    (h : binary_searchFuel arr x (arr.length + 1) = some res) :
    binary_search arr x = res := by
  have h2 := binary_search_eq_fuel arr x
  rw [h] at h2
  exact (Option.some.inj h2).symm

/-- Any normal result of the loop, started with `0 ≤ left` and
`right ≤ length - 1`, is either the sentinel `-1` or an in-range index
holding the target; and the loop never raises. No sortedness is needed. -/
theorem fuelGo_shape (arr : List Int) (t : Int) :
    ∀ (fuel : Nat) (left right : Int) (res : Option Int),
      0 ≤ left → right ≤ (arr.length : Int) - 1 →
      binary_searchFuelGo arr t fuel left right = some res →
      ∃ r : Int, res = some r ∧
        (r = -1 ∨ (0 ≤ r ∧ r < (arr.length : Int) ∧ seqGet arr r = t)) := by
  intro fuel
  induction fuel with
  | zero => intro left right res _ _ h; simp [binary_searchFuelGo] at h
  | succ f ih =>
    intro left right res h0 h1 h
    by_cases hlr : left ≤ right
    · have hmid0 : 0 ≤ midOf left right := by rw [midOf_eq]; omega
      have hmidlen : midOf left right < (arr.length : Int) := by rw [midOf_eq]; omega
      rw [binary_searchFuelGo, if_pos hlr, pyIdx_of_bounds hmid0 hmidlen] at h
      simp only [] at h
      by_cases he : seqGet arr (midOf left right) = t
      · rw [if_pos he] at h
        exact ⟨midOf left right, (Option.some.inj h).symm, Or.inr ⟨hmid0, hmidlen, he⟩⟩
      · rw [if_neg he] at h
        by_cases hl : seqGet arr (midOf left right) < t
        · rw [if_pos hl] at h
          exact ih _ _ _ (by omega) h1 h
        · rw [if_neg hl] at h
          exact ih _ _ _ h0 (by omega) h
    · rw [binary_searchFuelGo, if_neg hlr] at h
      exact ⟨-1, (Option.some.inj h).symm, Or.inl rfl⟩

/-- On a list sorted in non-decreasing order, `seqGet` is monotone over
in-range integer positions. -/
theorem seqGet_mono {arr : List Int} (hs : List.Sorted (· ≤ ·) arr) {i j : Int}
    (h0 : 0 ≤ i) (hij : i ≤ j) (hj : j < (arr.length : Int)) :
    seqGet arr i ≤ seqGet arr j := by
  have hi : i.toNat < arr.length := by omega
  have hj2 : j.toNat < arr.length := by omega
  unfold seqGet
  rcases Nat.lt_or_ge i.toNat j.toNat with hlt | hge
  · have := List.pairwise_iff_get.mp hs ⟨i.toNat, hi⟩ ⟨j.toNat, hj2⟩ (Fin.mk_lt_mk.mpr hlt)
    simpa [List.getD_eq_getElem, hi, hj2] using this
  · have heq : i.toNat = j.toNat := by omega
    rw [heq]

/-- On a sorted list, if the current window contains a position holding
the target, the loop returns an in-range position holding the target. -/
theorem fuelGo_find (arr : List Int) (t : Int) (hs : List.Sorted (· ≤ ·) arr) :
    ∀ (fuel : Nat) (left right : Int) (res : Option Int),
      0 ≤ left → right ≤ (arr.length : Int) - 1 →
      (∃ i : Int, left ≤ i ∧ i ≤ right ∧ seqGet arr i = t) →
      binary_searchFuelGo arr t fuel left right = some res →
      ∃ r : Int, res = some r ∧ 0 ≤ r ∧ r < (arr.length : Int) ∧ seqGet arr r = t := by
  intro fuel
  induction fuel with
  | zero => intro left right res _ _ _ h; simp [binary_searchFuelGo] at h
  | succ f ih =>
    intro left right res h0 h1 hex h
    obtain ⟨i, hil, hir, hit⟩ := hex
    have hlr : left ≤ right := le_trans hil hir
    have hmid0 : 0 ≤ midOf left right := by rw [midOf_eq]; omega
    have hmidle : midOf left right ≤ right := by rw [midOf_eq]; omega
    have hmidge : left ≤ midOf left right := by rw [midOf_eq]; omega
    have hmidlen : midOf left right < (arr.length : Int) := by omega
    rw [binary_searchFuelGo, if_pos hlr, pyIdx_of_bounds hmid0 hmidlen] at h
    simp only [] at h
    by_cases he : seqGet arr (midOf left right) = t
    · rw [if_pos he] at h
      exact ⟨midOf left right, (Option.some.inj h).symm, hmid0, hmidlen, he⟩
    · rw [if_neg he] at h
      by_cases hl : seqGet arr (midOf left right) < t
      · rw [if_pos hl] at h
        refine ih _ _ _ (by omega) h1 ⟨i, ?_, hir, hit⟩ h
        by_contra hcon
        push_neg at hcon
        have hmono : seqGet arr i ≤ seqGet arr (midOf left right) :=
          seqGet_mono hs (by omega) (by omega) hmidlen
        omega
      · rw [if_neg hl] at h
        push_neg at hl
        refine ih _ _ _ h0 (by omega) ⟨i, hil, ?_, hit⟩ h
        by_contra hcon
        push_neg at hcon
        have hmono : seqGet arr (midOf left right) ≤ seqGet arr i :=
          seqGet_mono hs hmid0 (by omega) (by omega)
        omega

/-- Started with `0 ≤ left` and `right ≤ length - 1`, the loop of the
source computes the reference loop of the spec: its normal result is the
reference result, wrapped in `some`. -/
theorem fuelGo_eq_spec (arr : List Int) (t : Int) :
    ∀ (fuel : Nat) (left right : Int) (res : Option Int),
      0 ≤ left → right ≤ (arr.length : Int) - 1 →
      binary_searchFuelGo arr t fuel left right = some res →
      res = some (spec_search_go arr t left right) := by
  intro fuel
  induction fuel with
  | zero => intro left right res _ _ h; simp [binary_searchFuelGo] at h
  | succ f ih =>
    intro left right res h0 h1 h
    by_cases hlr : left ≤ right
    · have hmid0 : 0 ≤ midOf left right := by rw [midOf_eq]; omega
      have hmidlen : midOf left right < (arr.length : Int) := by rw [midOf_eq]; omega
      rw [binary_searchFuelGo, if_pos hlr, pyIdx_of_bounds hmid0 hmidlen] at h
      simp only [] at h
      rw [spec_search_go, dif_pos hlr]
      by_cases he : seqGet arr (midOf left right) = t
      · rw [if_pos he] at h ⊢
        exact (Option.some.inj h).symm ▸ rfl
      · rw [if_neg he] at h ⊢
        by_cases hl : seqGet arr (midOf left right) < t
        · rw [if_pos hl] at h ⊢
          exact ih _ _ _ (by omega) h1 h
        · rw [if_neg hl] at h ⊢
          exact ih _ _ _ h0 (by omega) h
    · rw [binary_searchFuelGo, if_neg hlr] at h
      rw [spec_search_go, dif_neg hlr]
      exact (Option.some.inj h).symm ▸ rfl

/-- Claim C1: on a list sorted in non-decreasing order that contains the
target, `binary_search` returns normally with an index `i` such that the
element at `i` is the target (not necessarily the first occurrence). -/
theorem binary_search_finds (arr : List Int) (x : Int)
    (hs : List.Sorted (· ≤ ·) arr) (hx : x ∈ arr) :
    ∃ i : Nat, binary_search arr x = some (i : Int) ∧ arr[i]? = some x := by
  have h := binary_search_eq_fuel arr x
  obtain ⟨n, hn⟩ := List.mem_iff_get.mp hx
  have hnlt := n.isLt
  have hseq : seqGet arr ((n : Nat) : Int) = x := by
    simpa [seqGet, List.getD_eq_getElem, hnlt] using hn
  obtain ⟨r, hr, hr0, hrlen, hrget⟩ :=
    fuelGo_find arr x hs _ 0 _ _ (by omega) (by omega)
      ⟨((n : Nat) : Int), by omega, by omega, hseq⟩ h
  have hlt : r.toNat < arr.length := by omega
  refine ⟨r.toNat, ?_, ?_⟩
  · rw [hr]
    congr 1
    omega
  · rw [List.getElem?_eq_getElem hlt]
    have hg : arr.getD r.toNat 0 = x := hrget
    rw [List.getD_eq_getElem _ _ hlt] at hg
    rw [hg]

/-- Closed instance of `binary_search_finds` at `arr = [1, 3, 5]`,
`x = 3`. -/
theorem binary_search_finds_witness :
    ∃ i : Nat, binary_search [1, 3, 5] 3 = some (i : Int) ∧
      ([1, 3, 5] : List Int)[i]? = some 3 :=
  binary_search_finds [1, 3, 5] 3 (by decide) (by decide)

/-- Claim C2: on a sorted list that does not contain the target,
`binary_search` returns normally with the sentinel `-1`. (The proof does
not even need the sortedness hypothesis.) -/
theorem binary_search_absent (arr : List Int) (x : Int)
    (_hs : List.Sorted (· ≤ ·) arr) (hx : x ∉ arr) :
    binary_search arr x = some (-1) := by
  have h := binary_search_eq_fuel arr x
  obtain ⟨r, hr, hcase⟩ := fuelGo_shape arr x _ 0 _ _ (by omega) (by omega) h
  rcases hcase with h1 | ⟨hr0, hrlen, hrget⟩
  · rw [hr, h1]
  · exfalso
    apply hx
    have hlt : r.toNat < arr.length := by omega
    have hg : arr.getD r.toNat 0 = x := hrget
    rw [List.getD_eq_getElem _ _ hlt] at hg
    exact hg ▸ List.getElem_mem hlt

/-- Closed instance of `binary_search_absent` at `arr = [1, 3, 5]`,
`x = 4`. -/
theorem binary_search_absent_witness : binary_search [1, 3, 5] 4 = some (-1) :=
  binary_search_absent [1, 3, 5] 4 (by decide) (by decide)

/-- Claim C3: for every list and target, `binary_search` returns normally
(the error branch of the embedded indexing is never taken); moreover, in
any loop state satisfying the reachable-state invariant `0 ≤ left` and
`right ≤ length - 1` in which the body runs (`left ≤ right`), the accessed
index `midOf left right` lies strictly inside the bounds of the list. -/
theorem binary_search_no_runtime_error :
    (∀ (arr : List Int) (x : Int), (binary_search arr x).isSome = true) ∧
    ∀ (arr : List Int) (left right : Int),
      0 ≤ left → right ≤ (arr.length : Int) - 1 → left ≤ right →
      0 ≤ midOf left right ∧ midOf left right < (arr.length : Int) := by
  constructor
  · intro arr x
    have h := binary_search_eq_fuel arr x
    obtain ⟨r, hr, _⟩ := fuelGo_shape arr x _ 0 _ _ (by omega) (by omega) h
    rw [hr]
    rfl
  · intro arr left right h0 h1 hlr
    rw [midOf_eq]
    omega

/-- Closed instance of `binary_search_no_runtime_error` at
`arr = [1, 3, 5]` with window `[0, 2]`. -/
theorem binary_search_no_runtime_error_witness :
    (binary_search [1, 3, 5] 4).isSome = true ∧
      (0 ≤ midOf 0 2 ∧ midOf 0 2 < (([1, 3, 5] : List Int).length : Int)) :=
  ⟨binary_search_no_runtime_error.1 [1, 3, 5] 4,
   binary_search_no_runtime_error.2 [1, 3, 5] 0 2 (by decide) (by decide) (by decide)⟩

/-- Claim C4: the window size `right - left` strictly decreases on every
iteration that does not return (whichever bound moves), and the search is
total: fuel `length + 1` makes the fuel-indexed loop finish with the value
of `binary_search`, for every list and target, sorted or not. -/
theorem binary_search_terminates :
    (∀ left right : Int, left ≤ right →
      right - (midOf left right + 1) < right - left ∧
        midOf left right - 1 - left < right - left) ∧
    ∀ (arr : List Int) (x : Int),
      binary_searchFuel arr x (arr.length + 1) = some (binary_search arr x) := by
  constructor
  · intro left right h
    rw [midOf_eq]
    omega
  · exact binary_search_eq_fuel

/-- Closed instance of `binary_search_terminates` at window `[0, 1]` and
at `arr = [5]`, `x = 5`. -/
theorem binary_search_terminates_witness :
    ((1 : Int) - (midOf 0 1 + 1) < 1 - 0 ∧ midOf 0 1 - 1 - 0 < 1 - 0) ∧
      binary_searchFuel [5] 5 (([5] : List Int).length + 1) = some (binary_search [5] 5) :=
  ⟨binary_search_terminates.1 0 1 (by decide), binary_search_terminates.2 [5] 5⟩

/-- Claim C5: for every list and target, the embedded implementation
returns normally with exactly the value of the spec's reference
algorithm `spec_search`. -/
theorem binary_search_refines_spec (arr : List Int) (x : Int) :
    binary_search arr x = some (spec_search arr x) := by
  have h := binary_search_eq_fuel arr x
  exact fuelGo_eq_spec arr x _ 0 _ _ (by omega) (by omega) h

/-- Claim C6: on the empty list the search returns the sentinel `-1` for
every target, and the loop guard fails at entry since `high = -1 < 0`. -/
theorem binary_search_empty (x : Int) :
    binary_search ([] : List Int) x = some (-1) ∧
      ¬ ((0 : Int) ≤ (([] : List Int).length : Int) - 1) := by
  exact ⟨binary_search_from_fuel [] x (some (-1)) rfl, by decide⟩

/-- Claim C7: on the driver's array `[1, 3, 5, 7, 9, 11, 13, 15, 17, 19]`
with target `7`, the search returns index `3`, and the driver prints
"Element 7 found at index 3". -/
theorem binary_search_demo_run :
    binary_search sorted_array 7 = some 3 ∧
      driver_output = some "Element 7 found at index 3" := by
  have h7 : binary_search sorted_array 7 = some 3 :=
    binary_search_from_fuel sorted_array 7 (some 3) rfl
  refine ⟨h7, ?_⟩
  have hres : result = some 3 := h7
  rw [driver_output, hres]
  decide

/-- Claim C8: on the driver's array, searching the first element `1`
yields index `0` and searching the last element `19` yields index `9`. -/
theorem binary_search_boundaries :
    binary_search sorted_array 1 = some 0 ∧ binary_search sorted_array 19 = some 9 :=
  ⟨binary_search_from_fuel sorted_array 1 (some 0) rfl,
   binary_search_from_fuel sorted_array 19 (some 9) rfl⟩

/-- Claim C9: the search is deterministic and pure: two calls on the same
list and target yield the same result (the embedding is a function of its
arguments alone and touches no other state). -/
theorem binary_search_deterministic (arr : List Int) (x : Int) (r1 r2 : Option Int)
    (h1 : binary_search arr x = r1) (h2 : binary_search arr x = r2) : r1 = r2 :=
  h1.symm.trans h2

/-- Closed instance of `binary_search_deterministic` on the driver's
array and target. -/
theorem binary_search_deterministic_witness : (some 3 : Option Int) = some 3 :=
  binary_search_deterministic sorted_array 7 (some 3) (some 3)
    (binary_search_from_fuel sorted_array 7 (some 3) rfl)
    (binary_search_from_fuel sorted_array 7 (some 3) rfl)

/-- Claim C10: for every list, sorted or not, a returned value other than
the sentinel `-1` is an in-range index whose element equals the target. -/
theorem binary_search_result_sound (arr : List Int) (x : Int) (r : Int)
    (h : binary_search arr x = some r) (hne : r ≠ -1) :
    0 ≤ r ∧ r < (arr.length : Int) ∧ arr[r.toNat]? = some x := by
  have hf := binary_search_eq_fuel arr x
  obtain ⟨r2, hr2, hcase⟩ := fuelGo_shape arr x _ 0 _ _ (by omega) (by omega) hf
  rw [h] at hr2
  have hrr : r2 = r := (Option.some.inj hr2).symm
  rcases hcase with h1 | ⟨h0, hlen, hget⟩
  · exact absurd (hrr.symm.trans h1) hne
  · rw [hrr] at h0 hlen hget
    have hlt : r.toNat < arr.length := by omega
    refine ⟨h0, hlen, ?_⟩
    rw [List.getElem?_eq_getElem hlt]
    have hg : arr.getD r.toNat 0 = x := hget
    rw [List.getD_eq_getElem _ _ hlt] at hg
    rw [hg]

/-- Closed instance of `binary_search_result_sound` on the unsorted list
`[3, 1, 2]` with target `1`, where the search happens to land on the
target at index `1`. -/
theorem binary_search_result_sound_witness :
    0 ≤ (1 : Int) ∧ (1 : Int) < (([3, 1, 2] : List Int).length : Int) ∧
      ([3, 1, 2] : List Int)[(1 : Int).toNat]? = some 1 :=
  binary_search_result_sound [3, 1, 2] 1 1
    (binary_search_from_fuel [3, 1, 2] 1 (some 1) rfl) (by decide)

end BinSearch
